import Mathlib

/-!
Verification of the category-hierarchy manager and product endpoints of the
bugu-store repository against its specification.

The TypeScript sources are embedded shallowly:

* `src/src/app/admin/categories/page.tsx` — the client-side
  `buildCategoryTree` function.  The JS implementation mutates node objects
  held in a `Map` keyed by category id; object references are modelled by
  those ids (the map's keys), so the mutable state is an association list
  from id to the list of child ids pushed so far, plus the list of root ids.
  The returned object graph is read back by a depth-bounded materializer.
* `src/unnamed/part_002` — `GET /api/admin/categories` and
  `POST /api/admin/categories`.
* `src/unnamed/part_003` — the `mainImage` selection of
  `GET /api/admin/products`.
* `src/src/app/api/admin/products/[id]/route.ts` — `DELETE` of a product.
* `src/prisma/migrations/20250816063052_init/migration.sql` — the
  `ON DELETE SET NULL` policy of `categories_parentId_fkey` and the
  `ON DELETE RESTRICT` policy of `order_items_variant_id_fkey`.

JavaScript truthiness of strings (`""` is falsy) is modelled explicitly
wherever the source tests a string value with `if (s)` or `!s`.
-/

deriving instance DecidableEq for Except

namespace BuguStore

/-- A category as delivered by the admin API and consumed by the categories
page (interface `Category` in `page.tsx`, without the derived `children`
array, which `buildCategoryTree` rebuilds from scratch). -/
structure Category where
  id : String
  name : String
  parentId : Option String
  productsCount : Nat
  childrenCount : Nat
  createdAt : String
deriving DecidableEq, Repr

/-- The parent reference as seen by `if (category.parentId)`: `null` and the
empty string are falsy in JavaScript, every other string is truthy. -/
def truthyParent (c : Category) : Option String :=
  match c.parentId with
  | some p => if p = "" then none else some p
  | none => none

/-- Pass 1 of `buildCategoryTree`:
`cats.forEach(cat => map.set(cat.id, { ...cat, children: [] }))`.
Each map entry is identified by its key (the category id) and carries the
ids of the children pushed so far (initially none).  `Map.set` keeps one
entry per key; the association list coincides with it when ids are
distinct, which the claims assume. -/
def initMap (cats : List Category) : List (String × List String) :=
  cats.map (fun c => (c.id, []))

/-- `map.get(p)` returning the children list of the node stored under `p`. -/
def mapGet (m : List (String × List String)) (p : String) : Option (List String) :=
  (m.find? (fun e => e.1 = p)).map (fun e => e.2)

/-- `parent.children.push(category)`: append the child id to the node stored
under the parent id. -/
def pushChild (m : List (String × List String)) (p : String) (cid : String) :
    List (String × List String) :=
  m.map (fun e => if e.1 = p then (e.1, e.2 ++ [cid]) else e)

/-- The mutable state of pass 2 of `buildCategoryTree`: the node map and the
`tree` array of root ids. -/
structure BuildState where
  map : List (String × List String)
  tree : List String
deriving DecidableEq, Repr

/-- One iteration of pass 2 of `buildCategoryTree`: if the node's parent
reference is truthy and the parent is present in the map, push the node onto
the parent's children, otherwise push it onto the root array. -/
def insertStep (s : BuildState) (cat : Category) : BuildState :=
  match truthyParent cat with
  | some p =>
    if (mapGet s.map p).isSome then
      { s with map := pushChild s.map p cat.id }
    else
      { s with tree := s.tree ++ [cat.id] }
  | none => { s with tree := s.tree ++ [cat.id] }

/-- The state after both passes of `buildCategoryTree`. -/
def buildState (cats : List Category) : BuildState :=
  cats.foldl insertStep { map := initMap cats, tree := [] }

/-- The tree of nodes returned by `buildCategoryTree`: a category together
with its (ordered) children. -/
inductive CatTree where
  | node (val : Category) (children : List CatTree)

/-- Recover the category stored under an id (the spread `{ ...cat }` kept all
scalar fields of the source category). -/
def findCat (cats : List Category) (i : String) : Option Category :=
  cats.find? (fun c => c.id = i)

/-- Read the object graph left in the node map back as a tree, following
child ids.  The depth is bounded by `fuel`; on acyclic input a fuel of
`cats.length` reaches every node (proved below), and on cyclic input the JS
value is an infinite (cyclic) object graph that no finite tree represents. -/
def materializeNode (cats : List Category) (m : List (String × List String)) :
    Nat → Category → CatTree
  | 0, c => .node c []
  | fuel + 1, c =>
    .node c (((mapGet m c.id).getD []).filterMap
      (fun i => (findCat cats i).map (materializeNode cats m fuel)))

/-- `buildCategoryTree` from `page.tsx`: build the node map, distribute every
category to its parent's children or to the root array, and return the root
nodes with the object graph materialized. -/
def buildCategoryTree (cats : List Category) : List CatTree :=
  (buildState cats).tree.filterMap
    (fun i => (findCat cats i).map
      (materializeNode cats (buildState cats).map cats.length))

/-- The ids of a flat category list. -/
def catIds (cats : List Category) : List String :=
  cats.map (fun c => c.id)

/-- Whether `d` is pushed onto the children of the node with id `p`. -/
def isChildOf (d : Category) (p : String) : Bool :=
  truthyParent d = some p

/-- The categories that end up as children of the node with id `p`, in
source order. -/
def childCats (cats : List Category) (p : String) : List Category :=
  cats.filter (fun d => isChildOf d p)

/-- Whether a category is pushed onto the root array: its parent reference
is falsy, or the referenced parent is not among the keys `K` of the map. -/
def rootCondK (K : List String) (c : Category) : Bool :=
  match truthyParent c with
  | some p => ¬ (p ∈ K)
  | none => true

/-- Root condition relative to a flat input list. -/
def rootCond (cats : List Category) (c : Category) : Bool :=
  rootCondK (catIds cats) c

/-- The categories that end up in the root array, in source order. -/
def rootCats (cats : List Category) : List Category :=
  cats.filter (rootCond cats)

/-- The tree `buildCategoryTree` produces for one category, expressed
directly over the flat input (proved equal to the materialized output). -/
def baseNode (cats : List Category) : Nat → Category → CatTree
  | 0, c => .node c []
  | fuel + 1, c => .node c ((childCats cats c.id).map (baseNode cats fuel))

/-- All categories stored in a tree, root first. -/
def treeNodes : CatTree → List Category
  | .node c ts => c :: (ts.attach.map (fun t => treeNodes t.val)).flatten
decreasing_by
  have h := List.sizeOf_lt_of_mem t.property
  simp only [CatTree.node.sizeOf_spec]
  omega

/-- One breadth step: all children of all categories of a list. -/
def chStep (cats : List Category) (l : List Category) : List Category :=
  l.flatMap (fun c => childCats cats c.id)

/-- Iterated breadth steps. -/
def iterCh (cats : List Category) : Nat → List Category → List Category
  | 0, l => l
  | k + 1, l => iterCh cats k (chStep cats l)

/-- All categories reached in fewer than `k` breadth steps from `l`. -/
def levelSum (cats : List Category) : Nat → List Category → List Category
  | 0, _ => []
  | k + 1, l => l ++ levelSum cats k (chStep cats l)

/-- The flattening of the trees grown (with the given fuel) from a list of
start categories. -/
def bindTrees (cats : List Category) (fuel : Nat) (l : List Category) :
    List Category :=
  l.flatMap (fun c => treeNodes (baseNode cats fuel c))

/-! ## Relational store (prisma schema, migrations of 2025-08-16/17) -/

/-- A row of the `categories` table. -/
structure CategoryRow where
  id : String
  name : String
  parentId : Option String
  createdAt : Nat
deriving DecidableEq, Repr

/-- A row of the `products` table. -/
structure ProductRow where
  id : String
  categoryId : String
  name : String
  isActive : Bool
  createdAt : Nat
deriving DecidableEq, Repr

/-- A row of the `product_variants` table. -/
structure VariantRow where
  id : String
  productId : String
deriving DecidableEq, Repr

/-- A row of the `product_images` table (after the second migration the
foreign key points at the variant). -/
structure ImageRow where
  id : String
  productVariantId : String
  imageUrl : String
  isMain : Bool
deriving DecidableEq, Repr

/-- A row of the `product_attributes` table. -/
structure AttributeRow where
  id : String
  productVariantId : String
  name : String
  value : String
deriving DecidableEq, Repr

/-- A row of the `order_items` table. -/
structure OrderItemRow where
  id : String
  orderId : String
  variantId : String
deriving DecidableEq, Repr

/-- The datastore state touched by the verified endpoints. -/
structure Store where
  categories : List CategoryRow
  products : List ProductRow
  variants : List VariantRow
  images : List ImageRow
  attributes : List AttributeRow
  orderItems : List OrderItemRow
deriving DecidableEq, Repr

/-! ## GET /api/admin/categories (src/unnamed/part_002) -/

/-- Ordering used by `findMany({ orderBy: { createdAt: 'desc' } })`. -/
def newestFirst (a b : CategoryRow) : Prop :=
  b.createdAt ≤ a.createdAt

instance : DecidableRel newestFirst :=
  fun a b => inferInstanceAs (Decidable (b.createdAt ≤ a.createdAt))

instance : IsTotal CategoryRow newestFirst :=
  ⟨fun a b => Nat.le_total b.createdAt a.createdAt⟩

instance : IsTrans CategoryRow newestFirst :=
  ⟨fun _ _ _ hab hbc => Nat.le_trans hbc hab⟩

/-- The rows included as `children: true`: the direct children of `cid`. -/
def categoryChildrenRows (st : Store) (cid : String) : List CategoryRow :=
  st.categories.filter (fun d => d.parentId = some cid)

/-- The rows included as `products: { select: { id: true } }`: the ids of the
products directly associated with `cid`. -/
def categoryProductIds (st : Store) (cid : String) : List String :=
  (st.products.filter (fun p => p.categoryId = cid)).map (fun p => p.id)

/-- One element of the `GET /api/admin/categories` response: the row, the
included `parent`, `children` and `products` relations, and the two counts
added by `categoriesWithStats`. -/
structure CategoryStat where
  row : CategoryRow
  parent : Option CategoryRow
  children : List CategoryRow
  products : List String
  productsCount : Nat
  childrenCount : Nat
deriving DecidableEq, Repr

/-- The annotation of one category produced by the GET handler:
`{ ...category, productsCount: category.products.length,
childrenCount: category.children.length }`. -/
def categoryStatOf (st : Store) (c : CategoryRow) : CategoryStat :=
  { row := c
    parent := c.parentId.bind (fun p => st.categories.find? (fun d => d.id = p))
    children := categoryChildrenRows st c.id
    products := categoryProductIds st c.id
    productsCount := (categoryProductIds st c.id).length
    childrenCount := (categoryChildrenRows st c.id).length }

/-- `GET /api/admin/categories`: all categories ordered newest-created
first, each with its included relations and the two derived counts.  The
database sort is modelled by a (stable) insertion sort on `createdAt`
descending. -/
def listCategories (st : Store) : List CategoryStat :=
  (List.insertionSort newestFirst st.categories).map (categoryStatOf st)

/-- The shape in which the categories page consumes one response element
(interface `Category` of `page.tsx`). -/
def statToCategory (s : CategoryStat) : Category :=
  { id := s.row.id
    name := s.row.name
    parentId := s.row.parentId
    productsCount := s.productsCount
    childrenCount := s.childrenCount
    createdAt := toString s.row.createdAt }

/-- A flat row sequence that is a legal result of
`findMany({ orderBy: { createdAt: 'desc' } })`: the same rows in some
newest-first order.  Used to state that the listing is deterministic. -/
def validSortedRows (st : Store) (l : List CategoryRow) : Prop :=
  l.Perm st.categories ∧ l.Sorted newestFirst

/-! ## POST /api/admin/categories (src/unnamed/part_002) -/

/-- JavaScript truthiness of a nullable string: `null`/absent and `""` are
falsy. -/
def truthyStr : Option String → Bool
  | some s => ¬ s = ""
  | none => false

/-- Whitespace stripped by `String.prototype.trim` (restricted to the ASCII
whitespace characters relevant here). -/
def isJsSpace (c : Char) : Bool :=
  c = ' ' ∨ c = '\t' ∨ c = '\n' ∨ c = '\r'

/-- `name.trim()` of JavaScript: strip leading and trailing whitespace. -/
def jsTrim (s : String) : String :=
  String.mk (((s.data.dropWhile isJsSpace).reverse.dropWhile isJsSpace).reverse)

/-- Validation failures of the POST handler (both answered with HTTP 400). -/
inductive CategoriesPostError where
  | missingName
  | parentNotFound
deriving DecidableEq, Repr

/-- The request body `{ name, parentId }` of `POST /api/admin/categories`;
absent fields are `none`. -/
structure CreateBody where
  name : Option String
  parentId : Option String
deriving DecidableEq, Repr

/-- `POST /api/admin/categories`: reject when `!name?.trim()`; when
`parentId` is truthy and resolves to no category, reject with
"parent not found"; otherwise insert one row with the trimmed name and
`parentId || null`.  `newId` and `now` stand for the generated row id and
the insertion timestamp. -/
def postCategory (st : Store) (newId : String) (now : Nat) (body : CreateBody) :
    Except CategoriesPostError Store :=
  if (body.name.map jsTrim).getD "" = "" then
    .error .missingName
  else if truthyStr body.parentId
      && (st.categories.find? (fun c => body.parentId = some c.id)).isNone then
    .error .parentNotFound
  else
    .ok { st with categories := st.categories ++
      [{ id := newId
         name := jsTrim (body.name.getD "")
         parentId := if truthyStr body.parentId then body.parentId else none
         createdAt := now }] }

/-- The state the caller observes after a create attempt: the new store on
success, the unchanged store plus the error on failure (nothing inserted). -/
def applyPostCategory (st : Store) (newId : String) (now : Nat) (body : CreateBody) :
    Store × Option CategoriesPostError :=
  match postCategory st newId now body with
  | .ok s => (s, none)
  | .error e => (st, some e)

/-! ## Storage-level category deletion (migration.sql line 120) -/

/-- Deleting a `categories` row under
`categories_parentId_fkey ... ON DELETE SET NULL`: the row disappears and
every row whose `parentId` pointed at it becomes a root row. -/
def deleteCategoryRow (st : Store) (cid : String) : Store :=
  { st with categories :=
      ((st.categories.filter (fun c => ¬ c.id = cid)).map
        (fun c => if c.parentId = some cid then { c with parentId := none } else c)) }

/-! ## DELETE /api/admin/categories/{id} (modelled from the spec) -/

/-- Outcomes of the delete endpoint: unknown id, or an itemized dependency
rejection naming whether products and/or children block the deletion. -/
inductive CategoryDeleteError where
  | notFound
  | hasDependents (blockedByProducts : Bool) (blockedByChildren : Bool)
deriving DecidableEq, Repr

/-- Modelled from the spec: the handler of `DELETE /categories/{id}` is not
among the provided sources (only its client-side caller in `page.tsx` is).
Spec §4.1 "Operation: delete": precondition
`productsCount == 0 AND childrenCount == 0` enforced before the destructive
call; on violation a "has dependents" condition listing which of products
and children blocks deletion, and no mutation; otherwise the row is deleted
under the `ON DELETE SET NULL` referential policy. -/
def deleteCategory (st : Store) (cid : String) : Except CategoryDeleteError Store :=
  if (st.categories.find? (fun c => c.id = cid)).isNone then
    .error .notFound
  else if 0 < (categoryProductIds st cid).length ∨ 0 < (categoryChildrenRows st cid).length then
    .error (.hasDependents (decide (0 < (categoryProductIds st cid).length))
      (decide (0 < (categoryChildrenRows st cid).length)))
  else
    .ok (deleteCategoryRow st cid)

/-- The state the caller observes after a delete attempt: the new store on
success, the unchanged store plus the error on failure. -/
def applyDeleteCategory (st : Store) (cid : String) : Store × Option CategoryDeleteError :=
  match deleteCategory st cid with
  | .ok s => (s, none)
  | .error e => (st, some e)

/-- The delete button of the categories page (`page.tsx` line 589): disabled
while loading or whenever the category still has products or children. -/
def deleteButtonDisabled (formLoading : Bool) (c : Category) : Bool :=
  formLoading || decide (0 < c.productsCount) || decide (0 < c.childrenCount)

/-- The dependency lines rendered by the delete modal (`page.tsx` lines
569-574): whether the products line and the children line are shown. -/
def deleteBlockersShown (c : Category) : Bool × Bool :=
  (decide (0 < c.productsCount), decide (0 < c.childrenCount))

/-! ## PUT /api/admin/categories/{id} (modelled from the spec) -/

/-- Outcomes of the update endpoint. -/
inductive CategoryUpdateError where
  | notFound
  | invalidName
  | parentNotFound
deriving DecidableEq, Repr

/-- Overwrite name and parent of the row `cid`. -/
def setCategoryRow (st : Store) (cid : String) (name : String)
    (parentId : Option String) : Store :=
  { st with categories :=
      (st.categories.map
        (fun c => if c.id = cid then { c with name := jsTrim name, parentId := parentId } else c)) }

/-- Modelled from the spec: the handler of `PUT /categories/{id}` is not
among the provided sources (only its client-side caller in `page.tsx` is).
Spec §4.1 "Operation: update": 404 on unknown id, name must be non-empty
after trim, a supplied parent must exist; the reference implementation does
NOT check for cycles when reparenting (spec §4.1 and §9). -/
def updateCategory (st : Store) (cid : String) (name : String)
    (parentId : Option String) : Except CategoryUpdateError Store :=
  if (st.categories.find? (fun c => c.id = cid)).isNone then
    .error .notFound
  else if jsTrim name = "" then
    .error .invalidName
  else
    match parentId with
    | some p =>
      if (st.categories.find? (fun c => c.id = p)).isNone then
        .error .parentNotFound
      else
        .ok (setCategoryRow st cid name (some p))
    | none => .ok (setCategoryRow st cid name none)

/-- The parent id of the category row `i`, if any. -/
def parentOfId (st : Store) (i : String) : Option String :=
  (st.categories.find? (fun c => c.id = i)).bind (fun c => c.parentId)

/-- The chain of ancestors of `i`, followed for at most `fuel` steps. -/
def ancestorChain (st : Store) : Nat → String → List String
  | 0, _ => []
  | fuel + 1, i =>
    match parentOfId st i with
    | some p => p :: ancestorChain st fuel p
    | none => []

/-- Whether the category `i` is its own ancestor.  A cycle through `i`
revisits `i` within `st.categories.length` parent steps. -/
def isOwnAncestor (st : Store) (i : String) : Bool :=
  i ∈ ancestorChain st st.categories.length i

/-! ## DELETE /api/admin/products/[id] (route.ts) -/

/-- Outcomes of the product delete endpoint: unknown id, or the rejection of
the transaction by `order_items_variant_id_fkey ... ON DELETE RESTRICT`
(migration.sql line 135). -/
inductive ProductDeleteError where
  | notFound
  | restrictViolation
deriving DecidableEq, Repr

/-- The ids of the variants of product `pid`
(`where: { productVariant: { productId: id } }` resolves against these). -/
def productVariantIds (st : Store) (pid : String) : List String :=
  (st.variants.filter (fun v => v.productId = pid)).map (fun v => v.id)

/-- Whether some order line item references the variant. -/
def variantReferenced (st : Store) (vid : String) : Bool :=
  st.orderItems.any (fun o => o.variantId = vid)

/-- The body of the `prisma.$transaction` of the DELETE handler: delete the
images of the product's variants, then their attributes, then the variants
themselves — rejected by the RESTRICT constraint if any of them is still
referenced by an order item — then the product row. -/
def deleteProductTx (st : Store) (pid : String) : Except ProductDeleteError Store :=
  let vids := productVariantIds st pid
  let st1 := { st with images := st.images.filter (fun im => ¬ im.productVariantId ∈ vids) }
  let st2 := { st1 with attributes := st1.attributes.filter (fun a => ¬ a.productVariantId ∈ vids) }
  if (st2.variants.filter (fun v => v.productId = pid)).any (fun v => variantReferenced st2 v.id) then
    .error .restrictViolation
  else
    let st3 := { st2 with variants := st2.variants.filter (fun v => ¬ v.productId = pid) }
    .ok { st3 with products := st3.products.filter (fun p => ¬ p.id = pid) }

/-- `DELETE /api/admin/products/{id}`: 404 when the product does not exist,
otherwise run the deletion transaction. -/
def deleteProduct (st : Store) (pid : String) : Except ProductDeleteError Store :=
  if (st.products.find? (fun p => p.id = pid)).isNone then
    .error .notFound
  else
    deleteProductTx st pid

/-- The state the caller observes after a product delete attempt: the
transaction rolls back entirely on failure, so the store is unchanged. -/
def applyDeleteProduct (st : Store) (pid : String) : Store × Option ProductDeleteError :=
  match deleteProduct st pid with
  | .ok s => (s, none)
  | .error e => (st, some e)

/-! ## mainImage selection of GET /api/admin/products (src/unnamed/part_003) -/

/-- An image of a variant as included in the products listing. -/
structure PImage where
  imageUrl : String
  isMain : Bool
deriving DecidableEq, Repr

/-- A variant as consumed by the `mainImage` selection loop (only its
`images` relation is read). -/
structure PVariant where
  images : List PImage
deriving DecidableEq, Repr

/-- The `for (const variant of variants)` loop of the GET handler, with
`acc` the current value of the mutable `mainImage`: the first image marked
`isMain` ends the loop; otherwise, when `!mainImage` (null or empty string)
and the variant has images, `mainImage` becomes the variant's first image
URL and the scan continues. -/
def mainImageLoop (acc : Option String) : List PVariant → Option String
  | [] => acc
  | v :: vs =>
    match v.images.find? (fun img => img.isMain) with
    | some img => some img.imageUrl
    | none =>
      match v.images with
      | img0 :: _ =>
        if truthyStr acc then mainImageLoop acc vs
        else mainImageLoop (some img0.imageUrl) vs
      | [] => mainImageLoop acc vs

/-- The `mainImage` computed for one product of the listing response. -/
def computeMainImage (variants : List PVariant) : Option String :=
  mainImageLoop none variants

/-- The main image as the specification words it: the first `isMain` image
of the first variant having one; failing that, the first image of the
earliest variant that has any images; otherwise null. -/
def specMainImage (variants : List PVariant) : Option String :=
  match variants.find? (fun v => v.images.any (fun img => img.isMain)) with
  | some v => (v.images.find? (fun img => img.isMain)).map (fun img => img.imageUrl)
  | none =>
    match variants.find? (fun v => ¬ v.images.isEmpty) with
    | some v => v.images.head?.map (fun img => img.imageUrl)
    | none => none

/-! ## Concrete data used by witnesses and counterexamples -/

/-- Example category "a": a root. -/
def exA : Category :=
  { id := "a", name := "A", parentId := none, productsCount := 0, childrenCount := 2, createdAt := "t1" }

/-- Example category "b": child of "a". -/
def exB : Category :=
  { id := "b", name := "B", parentId := some "a", productsCount := 0, childrenCount := 1, createdAt := "t2" }

/-- Example category "c": child of "b". -/
def exC : Category :=
  { id := "c", name := "C", parentId := some "b", productsCount := 1, childrenCount := 0, createdAt := "t3" }

/-- Example category "d": child of "a". -/
def exD : Category :=
  { id := "d", name := "D", parentId := some "a", productsCount := 0, childrenCount := 0, createdAt := "t4" }

/-- A flat forest input for the tree builder. -/
def exCats : List Category := [exA, exB, exC, exD]

/-- A depth function witnessing that `exCats` is a forest. -/
def exDep : String → Nat :=
  fun i => if i = "a" then 0 else if i = "b" then 1 else if i = "d" then 1 else 2

/-- An example datastore: two categories (one the parent of the other plus
an empty leaf), one product with a variant referenced by an order item, and
one product whose rows nothing references. -/
def exStore : Store :=
  { categories := [{ id := "c1", name := "Shoes", parentId := none, createdAt := 10 },
                   { id := "c2", name := "Kids", parentId := some "c1", createdAt := 20 },
                   { id := "c3", name := "Empty", parentId := some "c1", createdAt := 30 }]
    products := [{ id := "p1", categoryId := "c2", name := "Boot", isActive := true, createdAt := 11 },
                 { id := "p2", categoryId := "c2", name := "Cap", isActive := true, createdAt := 12 }]
    variants := [{ id := "v1", productId := "p1" },
                 { id := "v2", productId := "p2" }]
    images := [{ id := "i1", productVariantId := "v1", imageUrl := "u1", isMain := true },
               { id := "i2", productVariantId := "v2", imageUrl := "u2", isMain := false }]
    attributes := [{ id := "at1", productVariantId := "v1", name := "size", value := "42" },
                   { id := "at2", productVariantId := "v2", name := "size", value := "M" }]
    orderItems := [{ id := "o1", orderId := "ord1", variantId := "v1" }] }

/-- The two-category store on which reparenting creates a cycle. -/
def cycStore : Store :=
  { categories := [{ id := "a", name := "A", parentId := none, createdAt := 1 },
                   { id := "b", name := "B", parentId := some "a", createdAt := 2 }]
    products := [], variants := [], images := [], attributes := [], orderItems := [] }

/-- Variants exhibiting the falsy-URL fallback of the mainImage loop: the
first variant's only image has the empty string as URL and is not marked
main, the second variant has an unmarked image "x". -/
def falsyVariants : List PVariant :=
  [{ images := [{ imageUrl := "", isMain := false }] },
   { images := [{ imageUrl := "x", isMain := false }] }]

/-- Variants with a marked main image in the second variant. -/
def mainedVariants : List PVariant :=
  [{ images := [{ imageUrl := "u0", isMain := false }] },
   { images := [{ imageUrl := "u1", isMain := false }, { imageUrl := "u2", isMain := true }] }]

/-! ## Characterization of the tree-building fold -/

theorem rootCondK_of_none {K : List String} {c : Category}
    (h : truthyParent c = none) : rootCondK K c = true := by
  simp [rootCondK, h]

theorem rootCondK_of_mem {K : List String} {c : Category} {p : String}
    (h : truthyParent c = some p) (hp : p ∈ K) : rootCondK K c = false := by
  simp [rootCondK, h, hp]

theorem rootCondK_of_not_mem {K : List String} {c : Category} {p : String}
    (h : truthyParent c = some p) (hp : p ∉ K) : rootCondK K c = true := by
  simp [rootCondK, h, hp]

theorem pushChild_keys (m : List (String × List String)) (p cid : String) :
    (pushChild m p cid).map (fun e => e.1) = m.map (fun e => e.1) := by
  simp only [pushChild, List.map_map]
  apply List.map_congr_left
  intro e _
  by_cases h : e.1 = p <;> simp [h]

theorem mapGet_isSome_iff (m : List (String × List String)) (p : String) :
    (mapGet m p).isSome = true ↔ p ∈ m.map (fun e => e.1) := by
  simp only [mapGet, List.mem_map]
  cases hf : m.find? (fun e => e.1 = p) with
  | none =>
    simp only [Option.map_none', Option.isSome_none, Bool.false_eq_true, false_iff]
    rintro ⟨e, he, hp⟩
    have := List.find?_eq_none.mp hf e he
    simp [hp] at this
  | some e =>
    simp only [Option.map_some', Option.isSome_some, true_iff]
    have hp := List.find?_some hf
    have hm := List.mem_of_find?_eq_some hf
    exact ⟨e, hm, by simpa using hp⟩

theorem isChildOf_eq_false_of_ne {cat : Category} {k p : String}
    (htp : truthyParent cat = some p) (hne : ¬ p = k) : isChildOf cat k = false := by
  simp only [isChildOf, htp]
  simpa using hne

theorem foldl_insertStep_tree (l : List Category) :
    ∀ s : BuildState,
      (l.foldl insertStep s).tree =
        s.tree ++ (l.filter (rootCondK (s.map.map (fun e => e.1)))).map (fun c => c.id) := by
  induction l with
  | nil => intro s; simp
  | cons cat l ih =>
    intro s
    rw [List.foldl_cons]
    cases htp : truthyParent cat with
    | none =>
      have hstep : insertStep s cat = { s with tree := s.tree ++ [cat.id] } := by
        simp [insertStep, htp]
      rw [hstep, ih]
      simp [List.filter_cons, rootCondK_of_none htp, List.append_assoc]
    | some p =>
      by_cases hmem : (mapGet s.map p).isSome = true
      · have hstep : insertStep s cat = { s with map := pushChild s.map p cat.id } := by
          simp [insertStep, htp, hmem]
        have hpk : p ∈ s.map.map (fun e => e.1) := (mapGet_isSome_iff s.map p).mp hmem
        rw [hstep, ih]
        simp [List.filter_cons, pushChild_keys, rootCondK_of_mem htp hpk]
      · have hnone : mapGet s.map p = none :=
          Option.not_isSome_iff_eq_none.mp (by simpa using hmem)
        have hstep : insertStep s cat = { s with tree := s.tree ++ [cat.id] } := by
          simp [insertStep, htp, hnone]
        have hpk : p ∉ s.map.map (fun e => e.1) :=
          fun h => hmem ((mapGet_isSome_iff s.map p).mpr h)
        rw [hstep, ih]
        simp [List.filter_cons, rootCondK_of_not_mem htp hpk, List.append_assoc]

theorem foldl_insertStep_map (l : List Category) :
    ∀ s : BuildState,
      (l.foldl insertStep s).map =
        s.map.map (fun e => (e.1, e.2 ++ ((l.filter (fun d => isChildOf d e.1)).map (fun c => c.id)))) := by
  induction l with
  | nil =>
    intro s
    simp
  | cons cat l ih =>
    intro s
    rw [List.foldl_cons]
    cases htp : truthyParent cat with
    | none =>
      have hstep : insertStep s cat = { s with tree := s.tree ++ [cat.id] } := by
        simp [insertStep, htp]
      rw [hstep, ih]
      apply List.map_congr_left
      intro e _
      have hch : isChildOf cat e.1 = false := by simp [isChildOf, htp]
      rw [List.filter_cons_of_neg (by simp [hch])]
    | some p =>
      by_cases hmem : (mapGet s.map p).isSome = true
      · have hstep : insertStep s cat = { s with map := pushChild s.map p cat.id } := by
          simp [insertStep, htp, hmem]
        rw [hstep, ih]
        simp only [pushChild, List.map_map]
        apply List.map_congr_left
        intro e _
        by_cases hpe : e.1 = p
        · have hch : isChildOf cat e.1 = true := by simp [isChildOf, htp, hpe]
          rw [List.filter_cons_of_pos (by simp [hch])]
          simp [Function.comp, hpe, List.append_assoc]
        · have hch : isChildOf cat e.1 = false :=
            isChildOf_eq_false_of_ne htp (fun h => hpe h.symm)
          rw [List.filter_cons_of_neg (by simp [hch])]
          simp [Function.comp, hpe]
      · have hnone : mapGet s.map p = none :=
          Option.not_isSome_iff_eq_none.mp (by simpa using hmem)
        have hstep : insertStep s cat = { s with tree := s.tree ++ [cat.id] } := by
          simp [insertStep, htp, hnone]
        have hpk : p ∉ s.map.map (fun e => e.1) :=
          fun h => hmem ((mapGet_isSome_iff s.map p).mpr h)
        rw [hstep, ih]
        apply List.map_congr_left
        intro e he
        have hek : e.1 ∈ s.map.map (fun x => x.1) := List.mem_map_of_mem _ he
        have hch : isChildOf cat e.1 = false :=
          isChildOf_eq_false_of_ne htp (fun h => hpk (h ▸ hek))
        rw [List.filter_cons_of_neg (by simp [hch])]

theorem initMap_keys (cats : List Category) :
    (initMap cats).map (fun e => e.1) = catIds cats := by
  simp [initMap, catIds, List.map_map, Function.comp]

theorem buildState_tree (cats : List Category) :
    (buildState cats).tree = (cats.filter (rootCond cats)).map (fun c => c.id) := by
  rw [buildState, foldl_insertStep_tree]
  rw [show ({ map := initMap cats, tree := [] } : BuildState).map = initMap cats from rfl]
  rw [initMap_keys]
  rw [List.nil_append]
  rfl

theorem buildState_map (cats : List Category) :
    (buildState cats).map =
      cats.map (fun c => (c.id, (childCats cats c.id).map (fun d => d.id))) := by
  rw [buildState, foldl_insertStep_map]
  rw [show ({ map := initMap cats, tree := [] } : BuildState).map = initMap cats from rfl]
  simp [initMap, List.map_map, Function.comp, childCats]

theorem findCat_self {cats : List Category} (hnodup : (catIds cats).Nodup)
    {c : Category} (hc : c ∈ cats) : findCat cats c.id = some c := by
  induction cats with
  | nil => cases hc
  | cons d tl ih =>
    have hnd : d.id ∉ tl.map (fun x => x.id) ∧ (tl.map (fun x => x.id)).Nodup := by
      simpa [catIds] using hnodup
    by_cases hdc : d.id = c.id
    · have hdceq : d = c := by
        rcases List.mem_cons.mp hc with h | hctl
        · exact h.symm
        · exact absurd (hdc ▸ List.mem_map_of_mem (fun x => x.id) hctl) hnd.1
      subst hdceq
      simp [findCat]
    · have hctl : c ∈ tl := by
        rcases List.mem_cons.mp hc with rfl | hctl
        · exact absurd rfl hdc
        · exact hctl
      have htl := ih (by simpa [catIds] using hnd.2) hctl
      rw [findCat, List.find?_cons_of_neg _ (by simpa using hdc)]
      exact htl

theorem mapGet_buildState {cats : List Category} (hnodup : (catIds cats).Nodup)
    {c : Category} (hc : c ∈ cats) :
    mapGet (buildState cats).map c.id = some ((childCats cats c.id).map (fun d => d.id)) := by
  have hf : cats.find? (fun d => d.id = c.id) = some c := findCat_self hnodup hc
  rw [mapGet, buildState_map, List.find?_map]
  have hpred : ((fun e : String × List String => decide (e.1 = c.id)) ∘
      (fun c => (c.id, (childCats cats c.id).map (fun d => d.id)))) =
      (fun d : Category => decide (d.id = c.id)) := by
    funext d
    rfl
  rw [hpred, hf]
  rfl

theorem filterMap_findCat {cats : List Category} (hnodup : (catIds cats).Nodup)
    (g : Category → CatTree) :
    ∀ l : List Category, (∀ d ∈ l, d ∈ cats) →
      (l.map (fun d => d.id)).filterMap (fun i => (findCat cats i).map g) = l.map g := by
  intro l
  induction l with
  | nil => intro _; simp
  | cons d tl ih =>
    intro hsub
    have hd : findCat cats d.id = some d := findCat_self hnodup (hsub d (by simp))
    simp only [List.map_cons, List.filterMap_cons, hd, Option.map_some']
    rw [ih (fun x hx => hsub x (List.mem_cons_of_mem _ hx))]

theorem materializeNode_eq_base {cats : List Category} (hnodup : (catIds cats).Nodup) :
    ∀ (fuel : Nat) (c : Category), c ∈ cats →
      materializeNode cats (buildState cats).map fuel c = baseNode cats fuel c := by
  intro fuel
  induction fuel with
  | zero => intro c _; rfl
  | succ fuel ih =>
    intro c hc
    rw [materializeNode, baseNode]
    rw [mapGet_buildState hnodup hc]
    simp only [Option.getD_some]
    rw [filterMap_findCat hnodup _ (childCats cats c.id)
      (fun d hd => List.mem_of_mem_filter hd)]
    apply congrArg
    apply List.map_congr_left
    intro d hd
    exact ih d (List.mem_of_mem_filter hd)

theorem buildCategoryTree_eq_base {cats : List Category} (hnodup : (catIds cats).Nodup) :
    buildCategoryTree cats = (rootCats cats).map (baseNode cats cats.length) := by
  rw [buildCategoryTree, buildState_tree]
  rw [show (cats.filter (rootCond cats)) = rootCats cats from rfl]
  rw [filterMap_findCat hnodup _ (rootCats cats)
    (fun d hd => List.mem_of_mem_filter hd)]
  apply List.map_congr_left
  intro c hc
  exact materializeNode_eq_base hnodup _ c (List.mem_of_mem_filter hc)

/-! ## The output forest is a permutation of the input -/

theorem treeNodes_node (c : Category) (ts : List CatTree) :
    treeNodes (.node c ts) = c :: (ts.map treeNodes).flatten := by
  rw [treeNodes]
  rw [List.attach_map_coe]

theorem treeNodes_base_succ (cats : List Category) (fuel : Nat) (c : Category) :
    treeNodes (baseNode cats (fuel + 1) c) =
      c :: (childCats cats c.id).flatMap (fun d => treeNodes (baseNode cats fuel d)) := by
  rw [baseNode, treeNodes_node]
  rw [List.map_map]
  rfl

theorem bindTrees_zero (cats : List Category) (l : List Category) :
    bindTrees cats 0 l = l := by
  rw [bindTrees]
  have h : ∀ c : Category, treeNodes (baseNode cats 0 c) = [c] := by
    intro c
    rw [baseNode, treeNodes_node]
    rfl
  simp only [h]
  simp

theorem flatMap_cons_perm (l : List Category) (g : Category → List Category) :
    (l.flatMap (fun c => c :: g c)).Perm (l ++ l.flatMap g) := by
  induction l with
  | nil => simp
  | cons a l ih =>
    simp only [List.flatMap_cons, List.cons_append]
    refine List.Perm.cons a ?_
    refine (List.Perm.append_left (g a) ih).trans ?_
    rw [← List.append_assoc, ← List.append_assoc]
    exact List.Perm.append_right _ List.perm_append_comm

theorem bindTrees_succ (cats : List Category) (fuel : Nat) (l : List Category) :
    (bindTrees cats (fuel + 1) l).Perm (l ++ bindTrees cats fuel (chStep cats l)) := by
  rw [bindTrees]
  simp only [treeNodes_base_succ]
  refine (flatMap_cons_perm l _).trans ?_
  apply List.Perm.append_left
  rw [bindTrees, chStep, List.flatMap_assoc]

theorem perm_bindTrees (cats : List Category) :
    ∀ (fuel : Nat) (l : List Category),
      (bindTrees cats fuel l).Perm (levelSum cats fuel l ++ iterCh cats fuel l) := by
  intro fuel
  induction fuel with
  | zero =>
    intro l
    rw [bindTrees_zero, levelSum, iterCh]
    simp
  | succ fuel ih =>
    intro l
    refine (bindTrees_succ cats fuel l).trans ?_
    rw [levelSum, iterCh, List.append_assoc]
    exact List.Perm.append_left l (ih (chStep cats l))

theorem chStep_append (cats : List Category) (a b : List Category) :
    chStep cats (a ++ b) = chStep cats a ++ chStep cats b := by
  rw [chStep, chStep, chStep, List.flatMap_append]

theorem perm_levels (cats : List Category) :
    ∀ (fuel : Nat) (s r : List Category),
      s.Perm (r ++ chStep cats s) →
      s.Perm (levelSum cats fuel r ++ iterCh cats fuel s) := by
  intro fuel
  induction fuel with
  | zero =>
    intro s r _
    rw [levelSum, iterCh]
    simp
  | succ fuel ih =>
    intro s r h
    have hch : (chStep cats s).Perm (chStep cats r ++ chStep cats (chStep cats s)) := by
      have h2 := List.Perm.flatMap_right (fun c => childCats cats c.id) h
      have hflat : ∀ u : List Category,
          u.flatMap (fun c => childCats cats c.id) = chStep cats u := fun u => rfl
      simp only [hflat] at h2
      rw [chStep_append] at h2
      exact h2
    have hrec := ih (chStep cats s) (chStep cats r) hch
    refine h.trans ?_
    rw [levelSum, iterCh, List.append_assoc]
    exact List.Perm.append_left r hrec

theorem count_filter_eq (p : Category → Bool) (x : Category) (l : List Category) :
    (l.filter p).count x = if p x then l.count x else 0 := by
  by_cases hx : p x
  · simp only [hx, if_true]
    exact List.count_filter (by simpa using hx)
  · simp only [hx, if_false]
    exact List.count_eq_zero_of_not_mem (fun hmem => hx (List.mem_filter.mp hmem).2)

theorem sum_map_ite (l : List Category) (p : Category → Bool) (k : Nat) :
    (l.map (fun c => if p c then k else 0)).sum = k * l.countP p := by
  induction l with
  | nil => simp
  | cons a l ih =>
    rw [List.map_cons, List.sum_cons, ih, List.countP_cons]
    by_cases ha : p a
    · rw [if_pos ha, if_pos ha]
      ring
    · rw [if_neg ha, if_neg ha]
      ring

theorem key_perm {cats : List Category} (hnodup : (catIds cats).Nodup) :
    cats.Perm (rootCats cats ++ chStep cats cats) := by
  rw [List.perm_iff_count]
  intro x
  rw [List.count_append, rootCats, count_filter_eq]
  have hch : (chStep cats cats).count x =
      (cats.map (fun c => (childCats cats c.id).count x)).sum := by
    rw [chStep, List.count_flatMap]
    rfl
  rw [hch,
    List.map_congr_left (fun c _ => count_filter_eq (fun d => isChildOf d c.id) x cats),
    sum_map_ite]
  cases htp : truthyParent x with
  | none =>
    have h0 : cats.countP (fun c => isChildOf x c.id) = 0 := by
      rw [List.countP_eq_zero]
      intro c _
      simp [isChildOf, htp]
    rw [h0, rootCond, rootCondK_of_none htp, if_pos rfl, Nat.mul_zero, Nat.add_zero]
  | some p =>
    have hcp : cats.countP (fun c => isChildOf x c.id) = (catIds cats).count p := by
      rw [catIds, List.count_eq_countP, List.countP_map]
      apply List.countP_congr
      intro c _
      simp only [isChildOf, htp, Function.comp_apply, beq_iff_eq, decide_eq_true_eq,
        Option.some.injEq]
      exact eq_comm
    by_cases hp : p ∈ catIds cats
    · have h1 : (catIds cats).count p = 1 := List.count_eq_one_of_mem hnodup hp
      rw [rootCond, rootCondK_of_mem htp hp, hcp, h1,
        if_neg (by exact Bool.false_ne_true), Nat.mul_one, Nat.zero_add]
    · have h0 : (catIds cats).count p = 0 := List.count_eq_zero_of_not_mem hp
      rw [rootCond, rootCondK_of_not_mem htp hp, hcp, h0, if_pos rfl,
        Nat.mul_zero, Nat.add_zero]

theorem chStep_mem {cats l : List Category} {x : Category} (hx : x ∈ chStep cats l) :
    x ∈ cats ∧ ∃ c ∈ l, truthyParent x = some c.id := by
  rw [chStep, List.mem_flatMap] at hx
  rcases hx with ⟨c, hc, hxc⟩
  have hm := List.mem_filter.mp hxc
  refine ⟨hm.1, c, hc, ?_⟩
  simpa [isChildOf] using hm.2

theorem iterCh_depth (cats : List Category) (dep : String → Nat)
    (hdep : ∀ c ∈ cats, ∀ p, truthyParent c = some p → dep p < dep c.id) :
    ∀ (k : Nat) (l : List Category) (j : Nat),
      (∀ x ∈ l, x ∈ cats ∧ j ≤ dep x.id) →
      ∀ x ∈ iterCh cats k l, x ∈ cats ∧ j + k ≤ dep x.id := by
  intro k
  induction k with
  | zero =>
    intro l j h x hx
    rw [iterCh] at hx
    have := h x hx
    exact ⟨this.1, by omega⟩
  | succ k ih =>
    intro l j h x hx
    rw [iterCh] at hx
    have hstep : ∀ y ∈ chStep cats l, y ∈ cats ∧ j + 1 ≤ dep y.id := by
      intro y hy
      obtain ⟨hyc, c, hcl, htp⟩ := chStep_mem hy
      have hc := h c hcl
      have hlt := hdep y hyc c.id htp
      exact ⟨hyc, by omega⟩
    have := ih (chStep cats l) (j + 1) hstep x hx
    exact ⟨this.1, by omega⟩

theorem iterCh_nil (cats : List Category) (dep : String → Nat)
    (hdep : ∀ c ∈ cats, ∀ p, truthyParent c = some p → dep p < dep c.id)
    (hbound : ∀ c ∈ cats, dep c.id < cats.length)
    (l : List Category) (hl : ∀ x ∈ l, x ∈ cats) :
    iterCh cats cats.length l = [] := by
  rw [List.eq_nil_iff_forall_not_mem]
  intro x hx
  have hd := iterCh_depth cats dep hdep cats.length l 0
    (fun y hy => ⟨hl y hy, Nat.zero_le _⟩) x hx
  have hb := hbound x hd.1
  omega

theorem buildTree_forest_perm {cats : List Category} (dep : String → Nat)
    (hnodup : (catIds cats).Nodup)
    (hdep : ∀ c ∈ cats, ∀ p, truthyParent c = some p → dep p < dep c.id)
    (hbound : ∀ c ∈ cats, dep c.id < cats.length) :
    ((buildCategoryTree cats).flatMap treeNodes).Perm cats := by
  rw [buildCategoryTree_eq_base hnodup]
  rw [List.flatMap_map]
  rw [show (rootCats cats).flatMap (fun x => treeNodes (baseNode cats cats.length x))
    = bindTrees cats cats.length (rootCats cats) from rfl]
  have hroots_sub : ∀ x ∈ rootCats cats, x ∈ cats := fun x hx => List.mem_of_mem_filter hx
  have h1 := perm_bindTrees cats cats.length (rootCats cats)
  have h3 := perm_levels cats cats.length cats (rootCats cats) (key_perm hnodup)
  rw [iterCh_nil cats dep hdep hbound (rootCats cats) hroots_sub] at h1
  rw [iterCh_nil cats dep hdep hbound cats (fun x hx => hx)] at h3
  simp only [List.append_nil] at h1 h3
  exact h1.trans h3.symm

/-- C1: for every flat input whose parent references form a forest — distinct
ids, every truthy parent id resolving to a category of the sequence, and
acyclicity witnessed by a depth function that increases from parent to child —
`buildCategoryTree` places every input category in exactly one tree (each
category occurs exactly once across the returned forest, which is a
permutation of the input), the total node count across the returned trees
equals the input length, and the input's relative order is preserved among
roots and among every node's children (both are source-order filters). -/
theorem buildCategoryTree_forest_correct
    (cats : List Category) (dep : String → Nat)
    (hnodup : (catIds cats).Nodup)
    (hresolve : ∀ c ∈ cats, ∀ p, truthyParent c = some p → p ∈ catIds cats)
    (hdep : ∀ c ∈ cats, ∀ p, truthyParent c = some p → dep p < dep c.id)
    (hbound : ∀ c ∈ cats, dep c.id < cats.length) :
    ((buildCategoryTree cats).flatMap treeNodes).Perm cats
    ∧ ((buildCategoryTree cats).flatMap treeNodes).length = cats.length
    ∧ (∀ x ∈ cats, ((buildCategoryTree cats).flatMap treeNodes).count x = 1)
    ∧ (buildState cats).tree = (cats.filter (rootCond cats)).map (fun c => c.id)
    ∧ (∀ c ∈ cats, mapGet (buildState cats).map c.id =
        some ((childCats cats c.id).map (fun d => d.id))) := by
  have hperm := buildTree_forest_perm dep hnodup hdep hbound
  refine ⟨hperm, hperm.length_eq, ?_, buildState_tree cats,
    fun c hc => mapGet_buildState hnodup hc⟩
  intro x hx
  rw [hperm.count_eq]
  exact List.count_eq_one_of_mem
    (List.Nodup.of_map (fun c => c.id) (by simpa [catIds] using hnodup)) hx

/-- Witness for C1: the concrete four-category forest `exCats`, with the
depth function `exDep`, satisfies all hypotheses, and the theorem applies. -/
theorem buildCategoryTree_forest_correct_witness :
    ((catIds exCats).Nodup
      ∧ (∀ c ∈ exCats, ∀ p, truthyParent c = some p → p ∈ catIds exCats)
      ∧ (∀ c ∈ exCats, ∀ p, truthyParent c = some p → exDep p < exDep c.id)
      ∧ (∀ c ∈ exCats, exDep c.id < exCats.length))
    ∧ (((buildCategoryTree exCats).flatMap treeNodes).Perm exCats
      ∧ ((buildCategoryTree exCats).flatMap treeNodes).length = exCats.length
      ∧ (∀ x ∈ exCats, ((buildCategoryTree exCats).flatMap treeNodes).count x = 1)
      ∧ (buildState exCats).tree = (exCats.filter (rootCond exCats)).map (fun c => c.id)
      ∧ (∀ c ∈ exCats, mapGet (buildState exCats).map c.id =
          some ((childCats exCats c.id).map (fun d => d.id)))) := by
  have hresolve : ∀ c ∈ exCats, ∀ p, truthyParent c = some p → p ∈ catIds exCats := by
    intro c hc p hp
    fin_cases hc
    · rw [show truthyParent exA = none from rfl] at hp; cases hp
    · rw [show truthyParent exB = some "a" from rfl] at hp
      cases hp; decide
    · rw [show truthyParent exC = some "b" from rfl] at hp
      cases hp; decide
    · rw [show truthyParent exD = some "a" from rfl] at hp
      cases hp; decide
  have hdep : ∀ c ∈ exCats, ∀ p, truthyParent c = some p → exDep p < exDep c.id := by
    intro c hc p hp
    fin_cases hc
    · rw [show truthyParent exA = none from rfl] at hp; cases hp
    · rw [show truthyParent exB = some "a" from rfl] at hp
      cases hp; decide
    · rw [show truthyParent exC = some "b" from rfl] at hp
      cases hp; decide
    · rw [show truthyParent exD = some "a" from rfl] at hp
      cases hp; decide
  exact ⟨⟨by decide, hresolve, hdep, by decide⟩,
    buildCategoryTree_forest_correct exCats exDep (by decide) hresolve hdep (by decide)⟩

/-- C2: a category whose truthy parent reference does not occur among the
input ids is pushed onto the root array rather than dropped; concretely, for
the filtered input `[exB, exC]` (the parent "a" of `exB` was excluded), the
builder returns `exB` at root with `exC` as its only child. -/
theorem buildCategoryTree_orphan_promotion
    (cats : List Category) (c : Category) (p : String)
    (hc : c ∈ cats) (htp : truthyParent c = some p) (hp : p ∉ catIds cats) :
    c.id ∈ (buildState cats).tree
    ∧ buildCategoryTree [exB, exC] = [.node exB [.node exC []]] := by
  constructor
  · rw [buildState_tree]
    refine List.mem_map_of_mem _ (List.mem_filter.mpr ⟨hc, ?_⟩)
    rw [rootCond]
    exact rootCondK_of_not_mem htp hp
  · rfl

/-- Witness for C2: applied to `exB` inside the filtered input `[exB, exC]`,
whose parent id "a" occurs nowhere in that input. -/
theorem buildCategoryTree_orphan_promotion_witness :
    (exB ∈ [exB, exC] ∧ truthyParent exB = some "a" ∧ "a" ∉ catIds [exB, exC])
    ∧ ("b" ∈ (buildState [exB, exC]).tree
      ∧ buildCategoryTree [exB, exC] = [.node exB [.node exC []]]) :=
  ⟨⟨by decide, by rfl, by decide⟩,
    buildCategoryTree_orphan_promotion [exB, exC] exB "a" (by decide) (by rfl) (by decide)⟩

/-- C3: the claim that every category write preserves acyclicity fails at the
update operation.  On the store with categories a (a root) and b (child of
a), reparenting a under b is accepted by the update endpoint — which, per
spec §4.1 and §9, performs no cycle check — and afterwards a is its own
ancestor, although the store was acyclic before. -/
theorem updateCategory_creates_cycle :
    updateCategory cycStore "a" "A" (some "b") =
      .ok (setCategoryRow cycStore "a" "A" (some "b"))
    ∧ isOwnAncestor (setCategoryRow cycStore "a" "A" (some "b")) "a" = true
    ∧ isOwnAncestor (setCategoryRow cycStore "a" "A" (some "b")) "b" = true
    ∧ isOwnAncestor cycStore "a" = false
    ∧ isOwnAncestor cycStore "b" = false := by
  refine ⟨by decide, by decide, by decide, by decide, by decide⟩

/-- C7: deleting a category row at the storage layer under
`ON DELETE SET NULL` keeps every other row — rows that pointed at the
deleted id survive with their parent reference set to null (they become
roots), rows that did not are kept unchanged — no row still references the
deleted id, and exactly the one row is removed. -/
theorem deleteCategoryRow_set_null (st : Store) (cid : String) :
    (∀ d ∈ (deleteCategoryRow st cid).categories, ¬ d.id = cid ∧ ¬ d.parentId = some cid)
    ∧ (deleteCategoryRow st cid).categories.length =
        (st.categories.filter (fun c => ¬ c.id = cid)).length
    ∧ (∀ c ∈ st.categories, ¬ c.id = cid → ¬ c.parentId = some cid →
        c ∈ (deleteCategoryRow st cid).categories)
    ∧ (∀ c ∈ st.categories, ¬ c.id = cid → c.parentId = some cid →
        { c with parentId := none } ∈ (deleteCategoryRow st cid).categories) := by
  refine ⟨?_, ?_, ?_, ?_⟩
  · intro d hd
    obtain ⟨o, ho, rfl⟩ := List.mem_map.mp hd
    have hof := List.mem_filter.mp ho
    have hne : ¬ o.id = cid := by simpa using hof.2
    by_cases hpar : o.parentId = some cid
    · simp [hpar, hne]
    · simp [hpar, hne]
  · exact List.length_map _ _
  · intro c hc hne hpar
    refine List.mem_map.mpr ⟨c, List.mem_filter.mpr ⟨hc, by simpa using hne⟩, ?_⟩
    rw [if_neg hpar]
  · intro c hc hne hpar
    refine List.mem_map.mpr ⟨c, List.mem_filter.mpr ⟨hc, by simpa using hne⟩, ?_⟩
    rw [if_pos hpar]

/-- Witness for C7: deleting "c1" from the example store; its child row "c2"
(which pointed at "c1") survives with a null parent. -/
theorem deleteCategoryRow_set_null_witness :
    ({ id := "c2", name := "Kids", parentId := some "c1", createdAt := 20 } : CategoryRow)
        ∈ exStore.categories
    ∧ (¬ ("c2" : String) = "c1")
    ∧ ({ id := "c2", name := "Kids", parentId := none, createdAt := 20 } : CategoryRow)
        ∈ (deleteCategoryRow exStore "c1").categories
    ∧ (∀ d ∈ (deleteCategoryRow exStore "c1").categories,
        ¬ d.id = "c1" ∧ ¬ d.parentId = some "c1") :=
  ⟨by decide, by decide,
    (deleteCategoryRow_set_null exStore "c1").2.2.2
      { id := "c2", name := "Kids", parentId := some "c1", createdAt := 20 }
      (by decide) (by decide) (by decide),
    (deleteCategoryRow_set_null exStore "c1").1⟩

/-- C4: deleting a category requires zero products and zero children.  With
dependents, the operation is rejected with an error itemizing whether
products and/or children block it, and the caller's store is unchanged; with
both counts zero, exactly the row is deleted.  The delete modal of the page
disables its button under the same condition. -/
theorem deleteCategory_precondition
    (st : Store) (cid : String) (c : CategoryRow)
    (hc : c ∈ st.categories) (hid : c.id = cid) :
    (0 < (categoryProductIds st cid).length ∨ 0 < (categoryChildrenRows st cid).length →
      deleteCategory st cid = .error (.hasDependents
        (decide (0 < (categoryProductIds st cid).length))
        (decide (0 < (categoryChildrenRows st cid).length)))
      ∧ (applyDeleteCategory st cid).1 = st)
    ∧ ((categoryProductIds st cid).length = 0 ∧ (categoryChildrenRows st cid).length = 0 →
      deleteCategory st cid = .ok (deleteCategoryRow st cid)
      ∧ ∀ d ∈ (deleteCategoryRow st cid).categories, ¬ d.id = cid)
    ∧ (∀ fl : Bool, deleteButtonDisabled fl (statToCategory (categoryStatOf st c)) =
        (fl || decide (0 < (categoryProductIds st cid).length)
            || decide (0 < (categoryChildrenRows st cid).length))) := by
  have hsome : (st.categories.find? (fun d => d.id = cid)).isSome = true :=
    List.find?_isSome.mpr ⟨c, hc, by simp [hid]⟩
  obtain ⟨d, hd⟩ := Option.isSome_iff_exists.mp hsome
  refine ⟨?_, ?_, ?_⟩
  · intro hdep
    have herr : deleteCategory st cid = .error (.hasDependents
        (decide (0 < (categoryProductIds st cid).length))
        (decide (0 < (categoryChildrenRows st cid).length))) := by
      rw [deleteCategory, hd]
      simp only [Option.isNone_some, Bool.false_eq_true, if_false]
      rw [if_pos hdep]
    refine ⟨herr, ?_⟩
    simp only [applyDeleteCategory, herr]
  · intro hzero
    have hok : deleteCategory st cid = .ok (deleteCategoryRow st cid) := by
      rw [deleteCategory, hd]
      simp only [Option.isNone_some, Bool.false_eq_true, if_false]
      rw [if_neg (by omega)]
    refine ⟨hok, ?_⟩
    intro e he
    obtain ⟨o, ho, rfl⟩ := List.mem_map.mp he
    have hof := List.mem_filter.mp ho
    have hne : ¬ o.id = cid := by simpa using hof.2
    by_cases hpar : o.parentId = some cid <;> simp [hpar, hne]
  · intro fl
    simp [deleteButtonDisabled, statToCategory, categoryStatOf, hid]

/-- Witness for C4: in the example store, "c1" (two child categories, no
products) is rejected with the itemized error and the store is unchanged,
while the empty leaf "c3" deletes. -/
theorem deleteCategory_precondition_witness :
    (deleteCategory exStore "c1" = .error (.hasDependents false true)
      ∧ (applyDeleteCategory exStore "c1").1 = exStore)
    ∧ deleteCategory exStore "c3" = .ok (deleteCategoryRow exStore "c3") := by
  have h1 := deleteCategory_precondition exStore "c1"
    { id := "c1", name := "Shoes", parentId := none, createdAt := 10 } (by decide) rfl
  have h3 := deleteCategory_precondition exStore "c3"
    { id := "c3", name := "Empty", parentId := some "c1", createdAt := 30 } (by decide) rfl
  have hdep := h1.1 (by decide)
  exact ⟨⟨hdep.1, hdep.2⟩, (h3.2.1 (by decide)).1⟩

/-- C5 counterexample: a create request whose `parentId` is the empty string
supplies a parent id that resolves to no category of the example store, yet
the handler does not answer 400: `if (parentId)` is false for `""`, so the
existence check is skipped and `parentId || null` stores null — the insert
succeeds as a root category. -/
theorem postCategory_empty_parentId_accepted :
    postCategory exStore "n1" 99 { name := some "x", parentId := some "" } =
      .ok { exStore with categories := exStore.categories ++
        [{ id := "n1", name := "x", parentId := none, createdAt := 99 }] }
    ∧ ¬ ("" ∈ exStore.categories.map (fun c => c.id)) := by
  exact ⟨by decide, by decide⟩

/-- C5 (amended): a missing, empty or whitespace-only name is rejected with
the validation error and nothing is inserted; a supplied NON-EMPTY parentId
that resolves to no existing category is rejected with "parent not found"
and nothing is inserted; otherwise exactly one row is appended whose stored
name is the trimmed input name and whose parent is the supplied parentId
when non-empty, and null when the parentId is absent or the empty string
(an empty-string parentId is treated as absent, not rejected). -/
theorem postCategory_validation
    (st : Store) (newId : String) (now : Nat) (body : CreateBody) :
    ((body.name.map jsTrim).getD "" = "" →
      postCategory st newId now body = .error .missingName
      ∧ (applyPostCategory st newId now body).1 = st)
    ∧ (¬ (body.name.map jsTrim).getD "" = "" →
      (∀ p, body.parentId = some p → ¬ p = "" →
          p ∉ st.categories.map (fun c => c.id) →
        postCategory st newId now body = .error .parentNotFound
        ∧ (applyPostCategory st newId now body).1 = st)
      ∧ (truthyStr body.parentId = false →
        postCategory st newId now body = .ok { st with categories := st.categories ++
          [{ id := newId, name := jsTrim (body.name.getD ""), parentId := none,
             createdAt := now }] })
      ∧ (∀ p, body.parentId = some p → ¬ p = "" →
          p ∈ st.categories.map (fun c => c.id) →
        postCategory st newId now body = .ok { st with categories := st.categories ++
          [{ id := newId, name := jsTrim (body.name.getD ""), parentId := some p,
             createdAt := now }] })) := by
  refine ⟨?_, ?_⟩
  · intro hname
    have herr : postCategory st newId now body = .error .missingName := by
      rw [postCategory, if_pos hname]
    exact ⟨herr, by simp only [applyPostCategory, herr]⟩
  · intro hname
    refine ⟨?_, ?_, ?_⟩
    · intro p hp hpne hpnot
      have hts : truthyStr body.parentId = true := by
        rw [hp, truthyStr]
        simpa using hpne
      have hfind : st.categories.find? (fun c => body.parentId = some c.id) = none := by
        rw [List.find?_eq_none]
        intro d hd hmatch
        rw [hp] at hmatch
        have : p = d.id := by simpa using hmatch
        exact hpnot (this ▸ List.mem_map_of_mem (fun c => c.id) hd)
      have herr : postCategory st newId now body = .error .parentNotFound := by
        rw [postCategory, if_neg hname, if_pos (by rw [hts, hfind]; rfl)]
      exact ⟨herr, by simp only [applyPostCategory, herr]⟩
    · intro hts
      rw [postCategory, if_neg hname, if_neg (by rw [hts]; simp)]
      rw [if_neg (by rw [hts]; exact Bool.false_ne_true)]
    · intro p hp hpne hpmem
      have hts : truthyStr body.parentId = true := by
        rw [hp, truthyStr]
        simpa using hpne
      obtain ⟨d, hd, hdid⟩ := List.mem_map.mp hpmem
      have hfind : (st.categories.find? (fun c => body.parentId = some c.id)).isSome = true :=
        List.find?_isSome.mpr ⟨d, hd, by simp [hp, hdid]⟩
      have hnone : (st.categories.find? (fun c => body.parentId = some c.id)).isNone = false := by
        rcases hopt : st.categories.find? (fun c => body.parentId = some c.id) with _ | d2
        · rw [hopt] at hfind
          cases hfind
        · rw [hopt]
          rfl
      rw [postCategory, if_neg hname, if_neg (by rw [hts, hnone]; simp)]
      rw [hts, hp]
      simp

/-- Witness for the amended C5: creating " New " under the existing parent
"c1" appends exactly one row with the trimmed name and that parent. -/
theorem postCategory_validation_witness :
    (¬ ((some " New " : Option String).map jsTrim).getD "" = ""
      ∧ ¬ ("c1" : String) = ""
      ∧ "c1" ∈ exStore.categories.map (fun c => c.id))
    ∧ postCategory exStore "n2" 50 { name := some " New ", parentId := some "c1" } =
        .ok { exStore with categories := exStore.categories ++
          [{ id := "n2", name := "New", parentId := some "c1", createdAt := 50 }] } := by
  have h := (postCategory_validation exStore "n2" 50
    { name := some " New ", parentId := some "c1" }).2 (by decide)
  exact ⟨⟨by decide, by decide, by decide⟩, h.2.2 "c1" rfl (by decide) (by decide)⟩

/-- C6: the listing returns all categories (a permutation of the stored
rows), ordered newest-created first, and annotates each category with its
direct counts: the number of products directly associated with it and the
number of its direct child categories — source-level filters, not
recursive descendant totals. -/
theorem listCategories_stats (st : Store) :
    ((listCategories st).map (fun e => e.row)).Perm st.categories
    ∧ (listCategories st).Pairwise (fun a b => b.row.createdAt ≤ a.row.createdAt)
    ∧ (∀ e ∈ listCategories st,
        e.productsCount = (st.products.filter (fun p => p.categoryId = e.row.id)).length
        ∧ e.childrenCount =
            (st.categories.filter (fun d => d.parentId = some e.row.id)).length
        ∧ e.products =
            (st.products.filter (fun p => p.categoryId = e.row.id)).map (fun p => p.id)
        ∧ e.children = st.categories.filter (fun d => d.parentId = some e.row.id)) := by
  refine ⟨?_, ?_, ?_⟩
  · rw [listCategories, List.map_map]
    have hcomp : ((fun e : CategoryStat => e.row) ∘ categoryStatOf st) =
        (id : CategoryRow → CategoryRow) := by
      funext c
      rfl
    rw [hcomp, List.map_id]
    exact List.perm_insertionSort newestFirst st.categories
  · rw [listCategories, List.pairwise_map]
    exact List.sorted_insertionSort newestFirst st.categories
  · intro e he
    rw [listCategories] at he
    obtain ⟨c, hc, rfl⟩ := List.mem_map.mp he
    refine ⟨?_, rfl, rfl, rfl⟩
    simp [categoryStatOf, categoryProductIds]

/-- Witness for C6: the theorem applied to the example store. -/
theorem listCategories_stats_witness :
    ((listCategories exStore).map (fun e => e.row)).Perm exStore.categories
    ∧ (listCategories exStore).Pairwise (fun a b => b.row.createdAt ≤ a.row.createdAt) :=
  ⟨(listCategories_stats exStore).1, (listCategories_stats exStore).2.1⟩

/-- Two newest-first sequences of the same rows are equal when creation
timestamps are pairwise distinct. -/
theorem sorted_perm_unique :
    ∀ l1 l2 : List CategoryRow, l1.Perm l2 → l1.Sorted newestFirst →
      l2.Sorted newestFirst → (l1.map (fun c => c.createdAt)).Nodup → l1 = l2 := by
  intro l1
  induction l1 with
  | nil =>
    intro l2 hperm _ _ _
    exact (hperm.symm.eq_nil).symm ▸ rfl
  | cons a t1 ih =>
    intro l2 hperm h1 h2 hnd
    cases l2 with
    | nil => cases hperm.eq_nil
    | cons b t2 =>
      have hnd0 : a.createdAt ∉ t1.map (fun c => c.createdAt)
          ∧ (t1.map (fun c => c.createdAt)).Nodup := by
        rw [List.map_cons, List.nodup_cons] at hnd
        exact hnd
      have hab : a = b := by
        by_contra hne
        have hbmem : b ∈ a :: t1 := hperm.mem_iff.mpr (by simp)
        have hamem : a ∈ b :: t2 := hperm.mem_iff.mp (by simp)
        have hb1 : b ∈ t1 := by
          rcases List.mem_cons.mp hbmem with h | h
          · exact absurd h.symm hne
          · exact h
        have ha2 : a ∈ t2 := by
          rcases List.mem_cons.mp hamem with h | h
          · exact absurd h hne
          · exact h
        have hba : newestFirst a b := (List.sorted_cons.mp h1).1 b hb1
        have hab2 : newestFirst b a := (List.sorted_cons.mp h2).1 a ha2
        have heq : a.createdAt = b.createdAt := Nat.le_antisymm hab2 hba
        exact hnd0.1 (heq ▸ List.mem_map_of_mem (fun c => c.createdAt) hb1)
      subst hab
      have ht := hperm.cons_inv
      have hrec := ih t2 ht (List.sorted_cons.mp h1).2 (List.sorted_cons.mp h2).2 hnd0.2
      rw [hrec]

/-- C9: the listing is deterministic — evaluating it twice over the same
store yields equal sequences and hence equal trees — and, when creation
timestamps are pairwise distinct, its output is the unique newest-first
arrangement: any two legal results of the ordered query give the same
annotated sequence and the same tree. -/
theorem listCategories_deterministic (st : Store)
    (hts : (st.categories.map (fun c => c.createdAt)).Nodup) :
    listCategories st = listCategories st
    ∧ buildCategoryTree ((listCategories st).map statToCategory) =
        buildCategoryTree ((listCategories st).map statToCategory)
    ∧ (∀ l1 l2, validSortedRows st l1 → validSortedRows st l2 →
        l1.map (categoryStatOf st) = l2.map (categoryStatOf st)
        ∧ buildCategoryTree ((l1.map (categoryStatOf st)).map statToCategory) =
          buildCategoryTree ((l2.map (categoryStatOf st)).map statToCategory)) := by
  refine ⟨rfl, rfl, ?_⟩
  intro l1 l2 h1 h2
  have hperm : l1.Perm l2 := h1.1.trans h2.1.symm
  have hnd1 : (l1.map (fun c => c.createdAt)).Nodup := by
    have := (h1.1.map (fun c => c.createdAt)).nodup_iff.mpr hts
    exact this
  have heq : l1 = l2 := sorted_perm_unique l1 l2 hperm h1.2 h2.2 hnd1
  rw [heq]
  exact ⟨rfl, rfl⟩

/-- Witness for C9: the example store has pairwise distinct creation
timestamps, and the theorem applies to it. -/
theorem listCategories_deterministic_witness :
    (exStore.categories.map (fun c => c.createdAt)).Nodup
    ∧ listCategories exStore = listCategories exStore :=
  ⟨by decide, (listCategories_deterministic exStore (by decide)).1⟩

theorem deleteProductTx_eq (st : Store) (pid : String) :
    deleteProductTx st pid =
      if (st.variants.filter (fun v => v.productId = pid)).any
          (fun v => variantReferenced st v.id) then
        .error .restrictViolation
      else
        .ok { categories := st.categories
              products := st.products.filter (fun p => ¬ p.id = pid)
              variants := st.variants.filter (fun v => ¬ v.productId = pid)
              images := st.images.filter
                (fun im => ¬ im.productVariantId ∈ productVariantIds st pid)
              attributes := st.attributes.filter
                (fun a => ¬ a.productVariantId ∈ productVariantIds st pid)
              orderItems := st.orderItems } := by
  rfl

/-- C8: deleting a product removes the product together with all of its
variants, their images and their attributes, and touches nothing else; when
any of the product's variants is referenced by an order line item, the
transaction is rejected by the RESTRICT constraint and the caller's store is
entirely unchanged (atomic rollback: no row of any table is removed). -/
theorem deleteProduct_cascade
    (st : Store) (pid : String) (pr : ProductRow)
    (hpr : pr ∈ st.products) (hid : pr.id = pid) :
    ((∃ v ∈ st.variants, v.productId = pid ∧ variantReferenced st v.id = true) →
      deleteProduct st pid = .error .restrictViolation
      ∧ (applyDeleteProduct st pid).1 = st)
    ∧ ((∀ v ∈ st.variants, v.productId = pid → variantReferenced st v.id = false) →
      deleteProduct st pid = .ok
        { categories := st.categories
          products := st.products.filter (fun p => ¬ p.id = pid)
          variants := st.variants.filter (fun v => ¬ v.productId = pid)
          images := st.images.filter
            (fun im => ¬ im.productVariantId ∈ productVariantIds st pid)
          attributes := st.attributes.filter
            (fun a => ¬ a.productVariantId ∈ productVariantIds st pid)
          orderItems := st.orderItems }) := by
  have hsome : (st.products.find? (fun p => p.id = pid)).isSome = true :=
    List.find?_isSome.mpr ⟨pr, hpr, by simp [hid]⟩
  obtain ⟨d, hd⟩ := Option.isSome_iff_exists.mp hsome
  refine ⟨?_, ?_⟩
  · rintro ⟨v, hv, hvpid, hvref⟩
    have hcond : (st.variants.filter (fun w => w.productId = pid)).any
        (fun w => variantReferenced st w.id) = true := by
      rw [List.any_eq_true]
      exact ⟨v, List.mem_filter.mpr ⟨hv, by simpa using hvpid⟩, hvref⟩
    have herr : deleteProduct st pid = .error .restrictViolation := by
      rw [deleteProduct, hd]
      simp only [Option.isNone_some, Bool.false_eq_true, if_false]
      rw [deleteProductTx_eq, if_pos hcond]
    exact ⟨herr, by simp only [applyDeleteProduct, herr]⟩
  · intro hfree
    have hcond : (st.variants.filter (fun w => w.productId = pid)).any
        (fun w => variantReferenced st w.id) = false := by
      rw [List.any_eq_false]
      intro w hw
      have hwf := List.mem_filter.mp hw
      have := hfree w hwf.1 (by simpa using hwf.2)
      simp [this]
    rw [deleteProduct, hd]
    simp only [Option.isNone_some, Bool.false_eq_true, if_false]
    rw [deleteProductTx_eq, if_neg (by simp [hcond])]

/-- Witness for C8: in the example store, product "p1" (variant "v1"
referenced by order item "o1") is rejected and the store is unchanged;
product "p2" (nothing references its variant "v2") is deleted together with
its variant, image and attribute rows. -/
theorem deleteProduct_cascade_witness :
    (deleteProduct exStore "p1" = .error .restrictViolation
      ∧ (applyDeleteProduct exStore "p1").1 = exStore)
    ∧ deleteProduct exStore "p2" = .ok
        { categories := exStore.categories
          products := exStore.products.filter (fun p => ¬ p.id = "p2")
          variants := exStore.variants.filter (fun v => ¬ v.productId = "p2")
          images := exStore.images.filter
            (fun im => ¬ im.productVariantId ∈ productVariantIds exStore "p2")
          attributes := exStore.attributes.filter
            (fun a => ¬ a.productVariantId ∈ productVariantIds exStore "p2")
          orderItems := exStore.orderItems } := by
  have h1 := deleteProduct_cascade exStore "p1"
    { id := "p1", categoryId := "c2", name := "Boot", isActive := true, createdAt := 11 }
    (by decide) rfl
  have h2 := deleteProduct_cascade exStore "p2"
    { id := "p2", categoryId := "c2", name := "Cap", isActive := true, createdAt := 12 }
    (by decide) rfl
  refine ⟨h1.1 ⟨{ id := "v1", productId := "p1" }, by decide, by decide, by decide⟩, ?_⟩
  refine h2.2 ?_
  intro v hv hvp
  fin_cases hv
  · exact absurd hvp (by decide)
  · decide

/-- The loop keeps a truthy fallback: with a non-empty accumulator the scan
only ever replaces it by a marked main image. -/
theorem mainImageLoop_truthy (u : String) (hu : ¬ u = "") :
    ∀ vs : List PVariant, mainImageLoop (some u) vs =
      match vs.find? (fun v => v.images.any (fun img => img.isMain)) with
      | some v => (v.images.find? (fun img => img.isMain)).map (fun img => img.imageUrl)
      | none => some u := by
  intro vs
  induction vs with
  | nil => rfl
  | cons v vs ih =>
    rw [mainImageLoop]
    cases hm : v.images.find? (fun img => img.isMain) with
    | some img =>
      have hany : v.images.any (fun i => i.isMain) = true := by
        rw [List.any_eq_true]
        exact ⟨img, List.mem_of_find?_eq_some hm, List.find?_some hm⟩
      rw [List.find?_cons_of_pos _ (by simpa using hany)]
      show some img.imageUrl =
        Option.map (fun img => img.imageUrl) (v.images.find? (fun img => img.isMain))
      rw [hm]
      rfl
    | none =>
      have hany : v.images.any (fun i => i.isMain) = false := by
        rw [List.any_eq_false]
        intro img himg hmain
        exact List.find?_eq_none.mp hm img himg hmain
      rw [List.find?_cons_of_neg _ (by simp [hany])]
      have htr : truthyStr (some u) = true := by
        rw [truthyStr]
        simpa using hu
      cases himg : v.images with
      | nil => exact ih
      | cons img0 rest =>
        show (if truthyStr (some u) = true then mainImageLoop (some u) vs
          else mainImageLoop (some img0.imageUrl) vs) = _
        rw [if_pos htr]
        exact ih

/-- C10 counterexample: with no image marked main anywhere, the claim says
the result is the first image URL of the earliest variant that has images —
here the empty string from the first variant — but the code yields "x" from
the second variant, because the empty-string fallback is falsy for
`!mainImage` and gets overwritten. -/
theorem computeMainImage_falsy_fallback :
    computeMainImage falsyVariants = some "x"
    ∧ specMainImage falsyVariants = some ""
    ∧ ¬ computeMainImage falsyVariants = specMainImage falsyVariants :=
  ⟨rfl, rfl, by decide⟩

/-- C10 (amended): provided every image URL is non-empty, the listing's
mainImage is: the first image marked main of the first variant having one;
failing that, the first image URL of the earliest variant that has any
images; and null when no variant has images.  (With an empty-string URL the
fallback may instead be taken from a later variant, as the counterexample
shows.) -/
theorem computeMainImage_spec (variants : List PVariant)
    (hurl : ∀ v ∈ variants, ∀ img ∈ v.images, ¬ img.imageUrl = "") :
    computeMainImage variants = specMainImage variants := by
  induction variants with
  | nil => rfl
  | cons v vs ih =>
    rw [computeMainImage, mainImageLoop, specMainImage]
    cases hm : v.images.find? (fun img => img.isMain) with
    | some img =>
      have hany : v.images.any (fun i => i.isMain) = true := by
        rw [List.any_eq_true]
        exact ⟨img, List.mem_of_find?_eq_some hm, List.find?_some hm⟩
      rw [List.find?_cons_of_pos _ (by simpa using hany)]
      show some img.imageUrl =
        Option.map (fun img => img.imageUrl) (v.images.find? (fun img => img.isMain))
      rw [hm]
      rfl
    | none =>
      have hany : v.images.any (fun i => i.isMain) = false := by
        rw [List.any_eq_false]
        intro img himg hmain
        exact List.find?_eq_none.mp hm img himg hmain
      rw [List.find?_cons_of_neg _ (by simp [hany])]
      have hrest := ih (fun w hw img himg2 => hurl w (List.mem_cons_of_mem v hw) img himg2)
      cases himg : v.images with
      | nil =>
        have hinner : List.find? (fun w : PVariant => ¬ w.images.isEmpty) (v :: vs) =
            List.find? (fun w : PVariant => ¬ w.images.isEmpty) vs := by
          apply List.find?_cons_of_neg
          simp [himg]
        rw [hinner]
        exact hrest
      | cons img0 rest =>
        show mainImageLoop (some img0.imageUrl) vs = _
        have hne : ¬ img0.imageUrl = "" :=
          hurl v (by simp) img0 (by rw [himg]; simp)
        rw [mainImageLoop_truthy img0.imageUrl hne vs]
        cases hfind : vs.find? (fun w => w.images.any (fun img => img.isMain)) with
        | some w => rfl
        | none =>
          have hinner : List.find? (fun w : PVariant => ¬ w.images.isEmpty) (v :: vs) =
              some v := by
            apply List.find?_cons_of_pos
            simp [himg]
          rw [hinner]
          show some img0.imageUrl = Option.map (fun img => img.imageUrl) v.images.head?
          rw [himg]
          rfl

/-- Witness for the amended C10: on variants whose URLs are all non-empty
and whose second variant carries the marked main image "u2", the loop and
the specification agree. -/
theorem computeMainImage_spec_witness :
    (∀ v ∈ mainedVariants, ∀ img ∈ v.images, ¬ img.imageUrl = "")
    ∧ computeMainImage mainedVariants = specMainImage mainedVariants
    ∧ computeMainImage mainedVariants = some "u2" :=
  ⟨by decide, computeMainImage_spec mainedVariants (by decide), by decide⟩

end BuguStore
